import Mathlib

/- Verification of dllbridge32 (src/src/main.rs): a TCP server that bridges
   line-oriented textual requests to dynamic native calls through libffi.
   Wire strings are modeled as List Char; Rust Result is modeled by the
   RResult type below, whose crash constructor records a Rust panic
   (an out-of-bounds string slice).  The loaded native library is modeled
   as a lookup function from symbol names to either a loader diagnostic or
   the behaviour of the resolved address under the i32-only call interface
   that dynamic_invoke always builds. -/

deriving instance DecidableEq for Except

namespace Dllbridge

/-- Whitespace predicate used by the model for str::trim and
split_whitespace (the ASCII part of the Unicode class Rust uses). -/
def isWs (c : Char) : Bool :=
  c = ' ' || c = '\t' || c = '\n' || c = '\r'

/-- Model of str::trim: drop whitespace from both ends. -/
def listTrim (s : List Char) : List Char :=
  ((s.dropWhile isWs).reverse.dropWhile isWs).reverse

/-- ASCII lowercasing of one character; models str::to_lowercase on the
inputs that matter for the fixed type vocabulary. -/
def asciiLower (c : Char) : Char :=
  if 'A' ≤ c && c ≤ 'Z' then Char.ofNat (c.toNat + 32) else c

/-- Lowercase an entire token. -/
def strLower (s : List Char) : List Char := s.map asciiLower

/-- Index of the first occurrence of sep as a contiguous substring of s;
models str::find for both substring and single-char patterns. -/
def findSub (sep : List Char) : List Char → Option Nat
  | [] => if ([] : List Char).take sep.length = sep then some 0 else none
  | c :: cs =>
    if (c :: cs).take sep.length = sep then some 0
    else (findSub sep cs).map (· + 1)

/-- Substring containment test, modeling str::contains. -/
def hasSub (sep s : List Char) : Bool := (findSub sep s).isSome

/-- Fuel-driven worker for splitting on a substring pattern. -/
def splitOnAux (sep : List Char) : Nat → List Char → List (List Char)
  | 0, s => [s]
  | fuel + 1, s =>
    match findSub sep s with
    | none => [s]
    | some i => s.take i :: splitOnAux sep fuel (s.drop (i + sep.length))

/-- Model of str::split with a nonempty pattern (leftmost, non-overlapping
matches); fuel s.length + 1 always suffices for a nonempty pattern. -/
def listSplitOn (sep s : List Char) : List (List Char) :=
  splitOnAux sep (s.length + 1) s

/-- Fuel-driven worker counting non-overlapping occurrences of sep. -/
def countSubAux (sep : List Char) : Nat → List Char → Nat
  | 0, _ => 0
  | fuel + 1, s =>
    match findSub sep s with
    | none => 0
    | some i => countSubAux sep fuel (s.drop (i + sep.length)) + 1

/-- Number of non-overlapping occurrences of sep in s, counted left to
right exactly as str::split consumes them. -/
def countSub (sep s : List Char) : Nat := countSubAux sep (s.length + 1) s

/-- The four types of the wire vocabulary (enum SupportedType). -/
inductive SupportedType where
  | int
  | float
  | char
  | void
deriving DecidableEq

/-- Model of impl FromStr for SupportedType: case-insensitive match against
the fixed vocabulary, every other token rejected with a message naming it. -/
def SupportedType.fromStr (s : List Char) : Except (List Char) SupportedType :=
  if strLower s = ("int".toList) then .ok .int
  else if strLower s = ("float".toList) then .ok .float
  else if strLower s = ("char".toList) then .ok .char
  else if strLower s = ("void".toList) then .ok .void
  else .error (("Unsupported type: ".toList) ++ s)

/-- Parsed signature (struct FunctionSignature). -/
structure FunctionSignature where
  calling_convention : List Char
  param_types : List SupportedType
  return_type : SupportedType
deriving DecidableEq

/-- Outcome of a Rust computation: Ok, Err, or a panic (crash). -/
inductive RResult (α : Type) where
  | ok (a : α)
  | err (e : List Char)
  | crash
deriving DecidableEq

/-- Model of the collect::<Result<Vec<SupportedType>, String>>() step: trim
and parse each token, stopping at the first failure. -/
def collectTypes : List (List Char) → Except (List Char) (List SupportedType)
  | [] => .ok []
  | s :: rest =>
    match SupportedType.fromStr (listTrim s) with
    | .error e => .error e
    | .ok τ =>
      match collectTypes rest with
      | .error e => .error e
      | .ok τs => .ok (τ :: τs)

/-- Comma split, discard of whitespace-only tokens, and parse of the rest;
the params_part handling inside parse_signature. -/
def parseParamList (params_part : List Char) : Except (List Char) (List SupportedType) :=
  collectTypes ((listSplitOn ([','] ) params_part).filter (fun s => !(listTrim s).isEmpty))

/-- Tail of parse_signature shared by both parenthesis branches: resolve the
parameter tokens and the trimmed return-type token. -/
def finishParse (cc params_part ret_type_str : List Char) : RResult FunctionSignature :=
  match parseParamList params_part with
  | .error e => .err e
  | .ok param_types =>
    match SupportedType.fromStr (listTrim ret_type_str) with
    | .error e => .err e
    | .ok return_type => .ok ⟨cc, param_types, return_type⟩

/-- Handling of the left split part: find of char patterns on the raw text,
extraction of the calling convention from between the first opening and the
first closing parenthesis.  The Rust slice params_with_conv[start+1..end]
panics when end < start + 1, recorded here as crash. -/
def parseAfterSplit (params_with_conv ret_type_str : List Char) : RResult FunctionSignature :=
  match findSub (['('] ) params_with_conv with
  | some start =>
    match findSub ([')'] ) params_with_conv with
    | some stop =>
      if start + 1 ≤ stop then
        finishParse ((params_with_conv.drop (start + 1)).take (stop - (start + 1)))
          (params_with_conv.take start) ret_type_str
      else .crash
    | none => .err ("Malformed signature: missing closing parenthesis".toList)
  | none => finishParse ("cdecl".toList) params_with_conv ret_type_str

/-- Model of fn parse_signature: split on the arrow, require exactly two
parts, then handle the convention and the type tokens. -/
def parse_signature (signature : List Char) : RResult FunctionSignature :=
  match listSplitOn ("->".toList) signature with
  | [params_with_conv, ret_type_str] => parseAfterSplit params_with_conv ret_type_str
  | _ => .err ("Signature must contain '->'".toList)

/-- The i32 range bounds used by str::parse::<i32>. -/
def i32Min : Int := -(2 ^ 31)

/-- Upper bound of the i32 range. -/
def i32Max : Int := 2 ^ 31 - 1

/-- Numeric value of an ASCII digit. -/
def digitVal (c : Char) : Nat := c.toNat - 48

/-- Digit part of an integer token: a single leading sign is stripped. -/
def i32Digits (c : Char) (rest : List Char) : List Char :=
  if c = '-' || c = '+' then rest else c :: rest

/-- Signed value denoted by an integer token, before the range check. -/
def i32Val (c : Char) (rest : List Char) : Int :=
  if c = '-' then -(((i32Digits c rest).foldl (fun acc d => acc * 10 + digitVal d) 0 : Nat) : Int)
  else (((i32Digits c rest).foldl (fun acc d => acc * 10 + digitVal d) 0 : Nat) : Int)

/-- Model of str::parse::<i32>: optional single leading sign, one or more
ASCII digits, value required to fit the i32 range; anything else fails. -/
def parse_i32 (s : List Char) : Option Int :=
  match s with
  | [] => none
  | c :: rest =>
    if (i32Digits c rest).isEmpty then none
    else if (i32Digits c rest).all (fun d => '0' ≤ d && d ≤ '9') then
      if i32Min ≤ i32Val c rest ∧ i32Val c rest ≤ i32Max then some (i32Val c rest)
      else none
    else none

/-- Model of the collect::<Result<Vec<i32>, _>>() step of dynamic_invoke. -/
def collectOpt : List (List Char) → Option (List Int)
  | [] => some []
  | a :: rest =>
    match parse_i32 a with
    | none => none
    | some v =>
      match collectOpt rest with
      | none => none
      | some vs => some (v :: vs)

/-- Wrap an integer into the i32 range, modeling the i32 return slot of the
call interface built by dynamic_invoke. -/
def toI32 (x : Int) : Int := (x + 2 ^ 31) % 2 ^ 32 - 2 ^ 31

/-- Decimal rendering of the call result (i32::to_string). -/
def intDecimal (x : Int) : List Char := (toString x).toList

/-- Model of fn dynamic_invoke.  The resolved address is modeled by the
behaviour f of the native code under the interface the bridge always
builds: every argument an i32, one i32 return.  Argument tokens are parsed
as i32 first; any failure aborts before f is consulted. -/
def dynamic_invoke (f : List Int → Int) (args : List (List Char)) : RResult (List Char) :=
  match collectOpt args with
  | none => .err ("Argument parsing error".toList)
  | some parsed_args => .ok (intDecimal (toI32 (f parsed_args)))

/-- The loaded native library: per symbol name either the loader diagnostic
(Err of libloading get, rendered by to_string) or the resolved behaviour. -/
structure Library where
  get : List Char → Except (List Char) (List Int → Int)

/-- Model of fn invoke_function: CString check, symbol lookup, then the
metadata check, signature parse and dynamic invocation, in source order. -/
def invoke_function (lib : Library) (name : List Char) (metadata : Option (List Char))
    (args : List (List Char)) : RResult (List Char) :=
  if Char.ofNat 0 ∈ name then .err ("Invalid function name".toList)
  else
    match lib.get name with
    | .error e => .err e
    | .ok f =>
      match metadata with
      | some return_str =>
        match parse_signature return_str with
        | .err e => .err e
        | .crash => .crash
        | .ok _signature => dynamic_invoke f args
      | none => .err ("No signature string provided".toList)

/-- Token starts-with test (str::starts_with for a literal pattern). -/
def startsWithL (pat s : List Char) : Bool := decide (s.take pat.length = pat)

/-- Fuel-driven worker for trim_start_matches. -/
def trimStartAux (pat : List Char) : Nat → List Char → List Char
  | 0, s => s
  | fuel + 1, s =>
    if pat ≠ [] ∧ s.take pat.length = pat then trimStartAux pat fuel (s.drop pat.length)
    else s

/-- Model of str::trim_start_matches: strip every successive leading copy of
the pattern. -/
def trimStartMatches (pat s : List Char) : List Char :=
  trimStartAux pat (s.length + 1) s

/-- One push of the signature-gathering loop: a single separating space is
added only when the accumulator is nonempty. -/
def sigAppend (sig t : List Char) : List Char :=
  if sig.isEmpty then sig ++ t else sig ++ [' '] ++ t

/-- The signature-gathering loop of handle_client_command: concatenate
pieces with single spaces until the accumulated text contains the arrow,
returning the text and the index of the breaking token. -/
def sigScan : List (List Char) → Nat → List Char → Option (List Char × Nat)
  | [], _, _ => none
  | t :: rest, i, sig =>
    if hasSub ("->".toList) (sigAppend sig t) then some (sigAppend sig t, i)
    else sigScan rest (i + 1) (sigAppend sig t)

/-- Fuel-driven worker for split_whitespace. -/
def splitWsAux : Nat → List Char → List (List Char)
  | 0, _ => []
  | fuel + 1, s =>
    match s.dropWhile isWs with
    | [] => []
    | c :: cs =>
      (c :: cs).takeWhile (fun d => !isWs d) ::
        splitWsAux fuel ((c :: cs).dropWhile (fun d => !isWs d))

/-- Model of split_whitespace on the (already trimmed) request line. -/
def splitWs (s : List Char) : List (List Char) := splitWsAux (s.length + 1) s

/-- The single write_all a branch of handle_client_command performs: the
raw result text on success, the ERR-prefixed message on failure, and no
write at all (none) when the computation panics. -/
def respondWrite : RResult (List Char) → Option (List Char)
  | .ok res => some res
  | .err e => some (("ERR ".toList) ++ e)
  | .crash => none

/-- Body of fn handle_client_command over the token list: the call and name
checks, the sig: block scan, and the dispatch to invoke_function.  The
returned value is the one response text written to the stream, or none when
the thread panics before writing. -/
def handle_tokens (lib : Library) (tokens : List (List Char)) : Option (List Char) :=
  if tokens.head? ≠ some ("call".toList) then
    some ("ERR Command must start with 'call'".toList)
  else if tokens.length < 2 then
    some ("ERR Missing function name".toList)
  else
    match tokens.drop 2 with
    | sig_tok :: rest =>
      if startsWithL ("sig:".toList) sig_tok then
        match sigScan (trimStartMatches ("sig:".toList) sig_tok :: rest) 2 [] with
        | none => some ("ERR Malformed signature; no '->' found".toList)
        | some (sig, end_idx) =>
          respondWrite
            (invoke_function lib (tokens.getD 1 []) (some sig) (tokens.drop (end_idx + 1)))
      else respondWrite (invoke_function lib (tokens.getD 1 []) none (tokens.drop 2))
    | [] => respondWrite (invoke_function lib (tokens.getD 1 []) none (tokens.drop 2))

/-- Model of fn handle_client_command: whitespace tokenization of the line
followed by the token dispatch. -/
def handle_client_command (lib : Library) (line : List Char) : Option (List Char) :=
  handle_tokens lib (splitWs line)

/-- A fixed native behaviour used by concrete witnesses. -/
def zeroFun : List Int → Int := fun _ => 0

/-- A library in which every name resolves to zeroFun. -/
def constLib : Library := ⟨fun _ => Except.ok zeroFun⟩

/-- A library in which no name resolves; the diagnostic is fixed. -/
def badLib : Library := ⟨fun _ => Except.error ("sym lookup failed".toList)⟩

/-- Comma-joined parameter token text, the left side of the constructed
signature texts of the grammar claims. -/
def joinC : List (List Char) → List Char
  | [] => []
  | [t] => t
  | t :: u :: rest => t ++ ',' :: joinC (u :: rest)

/-- The lowercase vocabulary word of each supported type. -/
def wordOf : SupportedType → List Char
  | .int => "int".toList
  | .float => "float".toList
  | .char => "char".toList
  | .void => "void".toList

/-- On the empty string, findSub fails for every nonempty pattern. -/
theorem findSub_nil {sep : List Char} (h : sep ≠ []) : findSub sep [] = none := by
  simp only [findSub, List.take_nil]
  rw [if_neg]
  exact fun hc => h hc.symm

/-- A found occurrence fits inside the searched string. -/
theorem findSub_some_le {sep : List Char} :
    ∀ {s : List Char} {i : Nat}, findSub sep s = some i → i + sep.length ≤ s.length := by
  intro s
  induction s with
  | nil =>
    intro i h
    simp only [findSub, List.take_nil] at h
    split at h
    · next hc => cases h; simp [← hc]
    · cases h
  | cons c cs ih =>
    intro i h
    simp only [findSub] at h
    split at h
    · next hc =>
      cases h
      have hl := congrArg List.length hc
      rw [List.length_take] at hl
      have hle : sep.length ≤ (c :: cs).length := by
        rw [← hl]
        exact Nat.min_le_right _ _
      omega
    · next hc =>
      cases hfs : findSub sep cs with
      | none => rw [hfs] at h; cases h
      | some j =>
        rw [hfs] at h
        simp only [Option.map_some'] at h
        cases h
        have := ih hfs
        simp only [List.length_cons]
        omega

/-- Containment is monotone from the tail to the whole list. -/
theorem hasSub_cons_up {sep : List Char} {c : Char} {cs : List Char}
    (h : hasSub sep cs = true) : hasSub sep (c :: cs) = true := by
  unfold hasSub at *
  simp only [findSub]
  split
  · rfl
  · simpa using h

/-- Non-containment is inherited by the tail. -/
theorem hasSub_cons_down {sep : List Char} {c : Char} {cs : List Char}
    (h : hasSub sep (c :: cs) = false) : hasSub sep cs = false := by
  by_contra hne
  have := @hasSub_cons_up sep c cs (Bool.of_not_eq_false hne)
  rw [h] at this
  cases this

/-- For a two-character pattern, a mismatching head character is skipped. -/
theorem hasSub_cons_ne {a b c : Char} {cs : List Char} (h : c ≠ a) :
    hasSub [a, b] (c :: cs) = hasSub [a, b] cs := by
  unfold hasSub
  simp only [findSub]
  rw [if_neg]
  · simp
  · intro hc
    cases cs with
    | nil => simp at hc
    | cons d ds =>
      simp [List.take] at hc
      exact h hc.1

/-- A two-character pattern cannot occur when its first character is absent. -/
theorem noSub2_of_notMem {a b : Char} {s : List Char} (h : a ∉ s) :
    findSub [a, b] s = none := by
  induction s with
  | nil => exact findSub_nil (by simp)
  | cons c cs ih =>
    simp only [findSub]
    rw [if_neg]
    · rw [ih (fun hm => h (List.mem_cons_of_mem c hm))]
      rfl
    · intro hc
      cases cs with
      | nil => simp at hc
      | cons d ds =>
        simp [List.take] at hc
        exact h (by simp [hc.1])

/-- A single-character pattern cannot occur when the character is absent. -/
theorem noSub1_of_notMem {a : Char} {s : List Char} (h : a ∉ s) :
    findSub [a] s = none := by
  induction s with
  | nil => exact findSub_nil (by simp)
  | cons c cs ih =>
    simp only [findSub]
    rw [if_neg]
    · rw [ih (fun hm => h (List.mem_cons_of_mem c hm))]
      rfl
    · intro hc
      simp [List.take] at hc
      exact h (by simp [hc])

/-- Position of the first occurrence of a two-character pattern placed after
an occurrence-free left part (no straddling occurrence can exist because the
two pattern characters differ). -/
theorem findSub_sandwich2 {a b : Char} (hab : a ≠ b) :
    ∀ {L : List Char}, hasSub [a, b] L = false → ∀ (R : List Char),
      findSub [a, b] (L ++ a :: b :: R) = some L.length := by
  intro L
  induction L with
  | nil =>
    intro _ R
    simp only [List.nil_append, findSub, List.take, if_pos rfl]
    rfl
  | cons c cs ih =>
    intro hL R
    simp only [List.cons_append, findSub, List.append_eq]
    rw [if_neg]
    · rw [ih (hasSub_cons_down hL) R]
      rfl
    · intro hc
      cases hcs : cs with
      | nil =>
        subst hcs
        simp [List.take] at hc
        exact hab hc.2
      | cons d ds =>
        subst hcs
        simp [List.take] at hc
        apply absurd hL
        simp only [hasSub, findSub]
        rw [if_pos]
        · simp
        · simp [List.take, hc.1, hc.2]

/-- Position of the first occurrence of a single-character pattern placed
after a part free of that character. -/
theorem findSub_sandwich1 {a : Char} :
    ∀ {L : List Char}, a ∉ L → ∀ (R : List Char),
      findSub ([a] ) (L ++ a :: R) = some L.length := by
  intro L
  induction L with
  | nil =>
    intro _ R
    simp [findSub, List.take]
  | cons c cs ih =>
    intro hL R
    simp only [List.cons_append, findSub, List.append_eq]
    rw [if_neg]
    · rw [ih (fun hm => hL (List.mem_cons_of_mem c hm)) R]
      rfl
    · intro hc
      simp [List.take] at hc
      exact hL (by simp [hc])

/-- The last element of a list is a member. -/
theorem mem_of_getLast? {a : Char} :
    ∀ {x : List Char}, x.getLast? = some a → a ∈ x := by
  intro x
  induction x with
  | nil => intro h; cases h
  | cons c cs ih =>
    intro h
    cases hcs : cs with
    | nil => subst hcs; simp [List.getLast?] at h; simp [h]
    | cons d ds =>
      subst hcs
      rw [List.getLast?_cons_cons] at h
      exact List.mem_cons_of_mem c (ih h)

/-- Decomposition of a two-character occurrence over an append: it lies in
the left part, in the right part, or straddles the boundary. -/
theorem hasSub2_append {a b : Char} :
    ∀ {x y : List Char}, hasSub [a, b] (x ++ y) = true →
      hasSub [a, b] x = true ∨ hasSub [a, b] y = true ∨
        (x.getLast? = some a ∧ y.head? = some b) := by
  intro x
  induction x with
  | nil => intro y h; exact Or.inr (Or.inl (by simpa using h))
  | cons c cs ih =>
    intro y h
    by_cases hcs : hasSub [a, b] (cs ++ y) = true
    · rcases ih hcs with h1 | h2 | h3
      · exact Or.inl (hasSub_cons_up h1)
      · exact Or.inr (Or.inl h2)
      · rcases h3 with ⟨hlast, hhead⟩
        cases hne : cs with
        | nil => subst hne; simp at hlast
        | cons d ds =>
          subst hne
          refine Or.inr (Or.inr ⟨?_, hhead⟩)
          rw [List.getLast?_cons_cons]
          exact hlast
    · unfold hasSub at h
      simp only [List.cons_append, findSub, List.append_eq] at h
      split at h
      · next hc =>
        cases hys : cs ++ y with
        | nil => rw [hys] at hc; simp [List.take] at hc
        | cons e es =>
          rw [hys] at hc
          simp [List.take] at hc
          rcases hc with ⟨hca, heb⟩
          cases hcse : cs with
          | nil =>
            subst hcse
            simp only [List.nil_append] at hys
            refine Or.inr (Or.inr ⟨by simp [hca], ?_⟩)
            rw [hys, heb]
            rfl
          | cons d ds =>
            subst hcse
            simp only [List.cons_append] at hys
            cases hys
            left
            unfold hasSub
            simp only [findSub]
            rw [if_pos]
            · rfl
            · simp [List.take, hca, heb]
      · next =>
        apply absurd hcs
        simp only [Bool.not_eq_true]
        intro hx
        unfold hasSub at hx
        rw [Option.isSome_map'] at h
        rw [hx] at h
        cases h

/-- Success of findSub is equivalent to the existence of an occurrence. -/
theorem findSub_isSome_iff {sep : List Char} :
    ∀ {s : List Char},
      (findSub sep s).isSome = true ↔ ∃ i, (s.drop i).take sep.length = sep := by
  intro s
  induction s with
  | nil =>
    simp only [findSub, List.take_nil, List.drop_nil]
    constructor
    · intro h
      split at h
      · next hc => exact ⟨0, by simp [hc]⟩
      · cases h
    · intro ⟨i, hi⟩
      rw [if_pos hi.symm.symm]
      rfl
  | cons c cs ih =>
    simp only [findSub]
    split
    · next hc =>
      constructor
      · intro _
        exact ⟨0, by simpa using hc⟩
      · intro _
        rfl
    · next hc =>
      rw [Option.isSome_map']
      rw [ih]
      constructor
      · intro ⟨i, hi⟩
        exact ⟨i + 1, by simpa using hi⟩
      · intro ⟨i, hi⟩
        cases i with
        | zero => exact absurd (by simpa using hi) hc
        | succ j => exact ⟨j, by simpa using hi⟩

/-- An occurrence inside a suffix is an occurrence of the whole string. -/
theorem hasSub_of_drop {sep s : List Char} {k : Nat}
    (h : hasSub sep (s.drop k) = true) : hasSub sep s = true := by
  unfold hasSub at h ⊢
  rw [findSub_isSome_iff] at h ⊢
  rcases h with ⟨i, hi⟩
  rw [List.drop_drop] at hi
  exact ⟨k + i, hi⟩

/-- When no occurrence exists the split never fires, for any fuel. -/
theorem splitOnAux_none {sep s : List Char} (h : findSub sep s = none) :
    ∀ fuel, splitOnAux sep fuel s = [s] := by
  intro fuel
  cases fuel with
  | zero => rfl
  | succ f => simp [splitOnAux, h]

/-- Fuel irrelevance for the split worker once the fuel covers the length. -/
theorem splitOnAux_congr {sep : List Char} (hsep : sep ≠ []) :
    ∀ (f1 : Nat) {s : List Char} (f2 : Nat), s.length ≤ f1 → s.length ≤ f2 →
      splitOnAux sep f1 s = splitOnAux sep f2 s := by
  intro f1
  induction f1 with
  | zero =>
    intro s f2 h1 _
    have : s = [] := List.eq_nil_of_length_eq_zero (Nat.le_zero.mp h1)
    subst this
    rw [splitOnAux_none (findSub_nil hsep) 0, splitOnAux_none (findSub_nil hsep) f2]
  | succ g ih =>
    intro s f2 h1 h2
    cases hfs : findSub sep s with
    | none => rw [splitOnAux_none hfs, splitOnAux_none hfs]
    | some i =>
      have hle := findSub_some_le hfs
      have hsl : 1 ≤ sep.length := by
        cases sep with
        | nil => exact absurd rfl hsep
        | cons _ _ => simp
      cases f2 with
      | zero => omega
      | succ g2 =>
        simp only [splitOnAux, hfs]
        rw [ih g2 (by simp [List.length_drop]; omega) (by simp [List.length_drop]; omega)]

/-- Unfolding listSplitOn at a found occurrence. -/
theorem splitOn_some {sep s : List Char} {i : Nat} (hsep : sep ≠ [])
    (h : findSub sep s = some i) :
    listSplitOn sep s = s.take i :: listSplitOn sep (s.drop (i + sep.length)) := by
  unfold listSplitOn
  conv =>
    lhs
    simp only [splitOnAux, h]
  congr 1
  have hle := findSub_some_le h
  have hsl : 1 ≤ sep.length := by
    cases sep with
    | nil => exact absurd rfl hsep
    | cons _ _ => simp
  exact splitOnAux_congr hsep _ _ (by simp only [List.length_drop]; omega)
    (by simp only [List.length_drop]; omega)

/-- Unfolding listSplitOn when no occurrence exists. -/
theorem splitOn_none {sep s : List Char} (h : findSub sep s = none) :
    listSplitOn sep s = [s] :=
  splitOnAux_none h _

/-- The worker produces one more part than the occurrences it consumes. -/
theorem splitOnAux_length {sep : List Char} :
    ∀ (fuel : Nat) (s : List Char),
      (splitOnAux sep fuel s).length = countSubAux sep fuel s + 1 := by
  intro fuel
  induction fuel with
  | zero => intro s; rfl
  | succ f ih =>
    intro s
    simp only [splitOnAux, countSubAux]
    cases hfs : findSub sep s with
    | none => rfl
    | some i => simp [ih]

/-- Number of split parts equals the occurrence count plus one. -/
theorem splitOn_length {sep s : List Char} :
    (listSplitOn sep s).length = countSub sep s + 1 :=
  splitOnAux_length _ s

/-- Vocabulary resolution succeeds exactly on the lowercase word match. -/
theorem fromStr_ok_iff {s : List Char} {τ : SupportedType} :
    SupportedType.fromStr s = .ok τ ↔ strLower s = wordOf τ := by
  unfold SupportedType.fromStr
  split
  · next h =>
    constructor
    · intro he
      injection he with he2
      subst he2
      exact h
    · intro hw
      cases τ
      · rfl
      · exact absurd (h.symm.trans hw) (by decide)
      · exact absurd (h.symm.trans hw) (by decide)
      · exact absurd (h.symm.trans hw) (by decide)
  · split
    · next h =>
      constructor
      · intro he
        injection he with he2
        subst he2
        exact h
      · intro hw
        cases τ
        · exact absurd (h.symm.trans hw) (by decide)
        · rfl
        · exact absurd (h.symm.trans hw) (by decide)
        · exact absurd (h.symm.trans hw) (by decide)
    · split
      · next h =>
        constructor
        · intro he
          injection he with he2
          subst he2
          exact h
        · intro hw
          cases τ
          · exact absurd (h.symm.trans hw) (by decide)
          · exact absurd (h.symm.trans hw) (by decide)
          · rfl
          · exact absurd (h.symm.trans hw) (by decide)
      · split
        · next h =>
          constructor
          · intro he
            injection he with he2
            subst he2
            exact h
          · intro hw
            cases τ
            · exact absurd (h.symm.trans hw) (by decide)
            · exact absurd (h.symm.trans hw) (by decide)
            · exact absurd (h.symm.trans hw) (by decide)
            · rfl
        · next h1 h2 h3 h4 =>
          constructor
          · intro he
            cases he
          · intro hw
            cases τ
            · exact absurd hw h1
            · exact absurd hw h2
            · exact absurd hw h3
            · exact absurd hw h4

/-- Letters occurring in the vocabulary words. -/
def vocabLetters : List Char := "intfloachrvd".toList

/-- Every vocabulary word uses only vocabulary letters. -/
theorem wordOf_sub : ∀ (τ : SupportedType), ∀ d ∈ wordOf τ, d ∈ vocabLetters := by
  intro τ
  cases τ <;> decide

/-- A character lowering into the vocabulary letters is none of the
metacharacters of the grammar and is not whitespace. -/
theorem goodChar0 {c : Char} (h : asciiLower c ∈ vocabLetters) :
    c ≠ '-' ∧ c ≠ '>' ∧ c ≠ ',' ∧ c ≠ '(' ∧ c ≠ ')' ∧ isWs c = false := by
  refine ⟨fun hc => ?_, fun hc => ?_, fun hc => ?_, fun hc => ?_, fun hc => ?_, ?_⟩
  · subst hc; exact absurd h (by decide)
  · subst hc; exact absurd h (by decide)
  · subst hc; exact absurd h (by decide)
  · subst hc; exact absurd h (by decide)
  · subst hc; exact absurd h (by decide)
  · by_contra hb
    simp only [Bool.not_eq_false] at hb
    simp only [isWs, Bool.or_eq_true, decide_eq_true_eq] at hb
    rcases hb with ((rfl | rfl) | rfl) | rfl <;> exact absurd h (by decide)

/-- Vocabulary version of goodChar0. -/
theorem goodChar {c : Char} {τ : SupportedType} (h : asciiLower c ∈ wordOf τ) :
    c ≠ '-' ∧ c ≠ '>' ∧ c ≠ ',' ∧ c ≠ '(' ∧ c ≠ ')' ∧ isWs c = false :=
  goodChar0 (wordOf_sub τ _ h)

/-- Characters of a token resolving to the vocabulary lower into its word. -/
theorem vocab_char {t : List Char} {τ : SupportedType} (h : strLower t = wordOf τ) :
    ∀ c ∈ t, asciiLower c ∈ wordOf τ := by
  intro c hc
  rw [← h]
  exact List.mem_map_of_mem asciiLower hc

/-- A token resolving to the vocabulary is nonempty. -/
theorem vocab_ne_nil {t : List Char} {τ : SupportedType} (h : strLower t = wordOf τ) :
    t ≠ [] := by
  intro ht
  subst ht
  cases τ <;> exact absurd h (by decide)

/-- dropWhile is the identity when no element satisfies the predicate. -/
theorem dropWhile_eq_self {p : Char → Bool} {s : List Char}
    (h : ∀ c ∈ s, p c = false) : s.dropWhile p = s := by
  cases s with
  | nil => rfl
  | cons c cs =>
    rw [List.dropWhile_cons_of_neg]
    simp [h c (List.mem_cons_self c cs)]

/-- Trimming a fully non-whitespace token is the identity. -/
theorem listTrim_eq_self {t : List Char} (h : ∀ c ∈ t, isWs c = false) :
    listTrim t = t := by
  unfold listTrim
  rw [dropWhile_eq_self h]
  rw [dropWhile_eq_self (fun c hc => h c (List.mem_reverse.mp hc))]
  exact List.reverse_reverse t

/-- Trimming removes a trailing space from a non-whitespace token. -/
theorem listTrim_append_ws {t : List Char} (h : ∀ c ∈ t, isWs c = false)
    (hne : t ≠ []) : listTrim (t ++ [' ']) = t := by
  cases t with
  | nil => exact absurd rfl hne
  | cons c cs =>
    unfold listTrim
    rw [List.cons_append, List.dropWhile_cons_of_neg
      (by simp [h c (List.mem_cons_self c cs)])]
    rw [show (c :: (cs ++ [' '])).reverse = ' ' :: (c :: cs).reverse by simp]
    rw [List.dropWhile_cons_of_pos (by decide)]
    rw [dropWhile_eq_self (fun d hd => h d (List.mem_reverse.mp hd))]
    exact List.reverse_reverse _

/-- Trimming skips a leading space. -/
theorem listTrim_cons_ws (s : List Char) : listTrim (' ' :: s) = listTrim s := by
  unfold listTrim
  rw [List.dropWhile_cons_of_pos (by decide)]

/-- joinC unfolds over a cons with a nonempty tail. -/
theorem joinC_cons {x : List Char} {l : List (List Char)} (h : l ≠ []) :
    joinC (x :: l) = x ++ ',' :: joinC l := by
  cases l with
  | nil => exact absurd rfl h
  | cons u r => rfl

/-- Characters of a comma join come from the tokens or are commas. -/
theorem mem_joinC {c : Char} :
    ∀ {ts : List (List Char)}, c ∈ joinC ts → (∃ t ∈ ts, c ∈ t) ∨ c = ',' := by
  intro ts
  induction ts with
  | nil => intro h; simp [joinC] at h
  | cons t rest ih =>
    intro h
    cases hrest : rest with
    | nil =>
      subst hrest
      exact Or.inl ⟨t, List.mem_cons_self t [], h⟩
    | cons u rr =>
      subst hrest
      rw [joinC_cons (by simp)] at h
      rcases List.mem_append.mp h with h1 | h2
      · exact Or.inl ⟨t, List.mem_cons_self _ _, h1⟩
      · rcases List.mem_cons.mp h2 with h3 | h4
        · exact Or.inr h3
        · rcases ih h4 with ⟨t2, ht2, hc2⟩ | h5
          · exact Or.inl ⟨t2, List.mem_cons_of_mem t ht2, hc2⟩
          · exact Or.inr h5

/-- Comma split of a comma join with an occurrence-free suffix glued onto
the last token. -/
theorem splitComma_snoc :
    ∀ (xs : List (List Char)) (t r : List Char),
      (∀ x ∈ xs, ',' ∉ x) → ',' ∉ t → ',' ∉ r →
      listSplitOn ([','] ) (joinC (xs ++ [t]) ++ r) = xs ++ [t ++ r] := by
  intro xs
  induction xs with
  | nil =>
    intro t r _ ht hr
    simp only [List.nil_append]
    have hj : joinC [t] = t := rfl
    rw [hj]
    apply splitOn_none
    apply noSub1_of_notMem
    intro hm
    rcases List.mem_append.mp hm with h1 | h2
    · exact ht h1
    · exact hr h2
  | cons x xs ih =>
    intro t r hxs ht hr
    rw [List.cons_append]
    rw [joinC_cons (by simp : xs ++ [t] ≠ [])]
    rw [show (x ++ ',' :: joinC (xs ++ [t])) ++ r
        = x ++ ',' :: (joinC (xs ++ [t]) ++ r) by simp]
    rw [splitOn_some (by simp)
      (findSub_sandwich1 (hxs x (List.mem_cons_self x xs)) (joinC (xs ++ [t]) ++ r))]
    rw [show (x ++ ',' :: (joinC (xs ++ [t]) ++ r)).take x.length = x from
      List.take_left x _]
    rw [show (x ++ ',' :: (joinC (xs ++ [t]) ++ r)).drop (x.length + ([','] : List Char).length)
        = joinC (xs ++ [t]) ++ r by simp [List.drop_append]]
    rw [ih t r (fun y hy => hxs y (List.mem_cons_of_mem x hy)) ht hr]
    rfl

/-- Absence as a Boolean containment gives absence as an option. -/
theorem findSub_none_of_hasSub {sep s : List Char} (h : hasSub sep s = false) :
    findSub sep s = none := by
  unfold hasSub at h
  cases hf : findSub sep s with
  | none => rfl
  | some i => rw [hf] at h; cases h

/-- The trim-and-resolve collection succeeds on a matching pair list. -/
theorem collectTypes_ok :
    ∀ (l : List (List Char × SupportedType)),
      (∀ p ∈ l, SupportedType.fromStr (listTrim p.1) = .ok p.2) →
      collectTypes (l.map Prod.fst) = .ok (l.map Prod.snd) := by
  intro l
  induction l with
  | nil => intro _; rfl
  | cons p rest ih =>
    intro h
    simp only [List.map_cons, collectTypes]
    rw [h p (List.mem_cons_self p rest)]
    rw [ih (fun q hq => h q (List.mem_cons_of_mem p hq))]

/-- Resolution of the whole parameter text built by joining vocabulary
tokens with commas, with an optional trailing space glued on. -/
theorem parseParamList_join (tts : List (List Char × SupportedType)) (r : List Char)
    (h : ∀ p ∈ tts, SupportedType.fromStr p.1 = .ok p.2)
    (hr : r = [] ∨ r = [' ']) :
    parseParamList (joinC (tts.map Prod.fst) ++ r) = .ok (tts.map Prod.snd) := by
  rcases List.eq_nil_or_concat tts with rfl | ⟨init, p, htts⟩
  · rcases hr with rfl | rfl <;> rfl
  · rw [List.concat_eq_append] at htts
    subst htts
    have hword : ∀ q ∈ init ++ [p], strLower q.1 = wordOf q.2 :=
      fun q hq => fromStr_ok_iff.mp (h q hq)
    have hnc : ∀ q ∈ init ++ [p], ',' ∉ q.1 := by
      intro q hq hc
      exact (goodChar (vocab_char (hword q hq) ',' hc)).2.2.1 rfl
    have hws : ∀ q ∈ init ++ [p], ∀ c ∈ q.1, isWs c = false :=
      fun q hq c hc => (goodChar (vocab_char (hword q hq) c hc)).2.2.2.2.2
    have hnn : ∀ q ∈ init ++ [p], q.1 ≠ [] :=
      fun q hq => vocab_ne_nil (hword q hq)
    have hpmem : p ∈ init ++ [p] := List.mem_append_right _ (List.mem_cons_self p [])
    have hnr : (',' : Char) ∉ r := by
      rcases hr with rfl | rfl <;> decide
    have hsplit : listSplitOn ([','] ) (joinC ((init ++ [p]).map Prod.fst) ++ r)
        = init.map Prod.fst ++ [p.1 ++ r] := by
      rw [List.map_append]
      rw [show ([p] : List (List Char × SupportedType)).map Prod.fst = [p.1] from rfl]
      apply splitComma_snoc
      · intro x hx
        rcases List.mem_map.mp hx with ⟨q, hq, rfl⟩
        exact hnc q (List.mem_append_left _ hq)
      · exact hnc p hpmem
      · exact hnr
    have hlastTrim : listTrim (p.1 ++ r) = p.1 := by
      rcases hr with rfl | rfl
      · rw [List.append_nil]
        exact listTrim_eq_self (hws p hpmem)
      · exact listTrim_append_ws (hws p hpmem) (hnn p hpmem)
    unfold parseParamList
    rw [hsplit]
    rw [List.filter_eq_self.mpr ?hfilter]
    case hfilter =>
      intro x hx
      rcases List.mem_append.mp hx with h1 | h2
      · rcases List.mem_map.mp h1 with ⟨q, hq, rfl⟩
        have hqm := List.mem_append_left [p] hq
        rw [listTrim_eq_self (hws q hqm)]
        simp [List.isEmpty_iff, hnn q hqm]
      · rw [List.mem_singleton.mp h2]
        rw [hlastTrim]
        simp [List.isEmpty_iff, hnn p hpmem]
    have hct := collectTypes_ok (init ++ [(p.1 ++ r, p.2)]) ?hpairs
    case hpairs =>
      intro q hq
      rcases List.mem_append.mp hq with h1 | h2
      · have hqm := List.mem_append_left [p] h1
        rw [listTrim_eq_self (hws q hqm)]
        exact h q hqm
      · rw [List.mem_singleton.mp h2]
        show SupportedType.fromStr (listTrim (p.1 ++ r)) = .ok p.2
        rw [hlastTrim]
        exact h p hpmem
    rw [List.map_append, List.map_append] at hct
    simpa using hct

/-- C2 (amended): for vocabulary parameter tokens T1..Tn (case-insensitive),
a convention text conv that contains no closing parenthesis and no arrow
substring, and a vocabulary return token Tr, parsing
"T1,...,Tn(conv) -> Tr" succeeds with convention conv, the parameter types
in written order and the return type of Tr; without the parenthesized
segment the convention defaults to cdecl. -/
theorem c2_signature_grammar
    (tts : List (List Char × SupportedType)) (conv tr : List Char) (ρ : SupportedType)
    (h : ∀ p ∈ tts, SupportedType.fromStr p.1 = .ok p.2)
    (hconv1 : ')' ∉ conv)
    (hconv2 : hasSub ("->".toList) conv = false)
    (hret : SupportedType.fromStr tr = .ok ρ) :
    parse_signature (joinC (tts.map Prod.fst) ++ ['('] ++ conv ++ [')']
        ++ [' ', '-', '>', ' '] ++ tr)
      = .ok ⟨conv, tts.map Prod.snd, ρ⟩
    ∧ parse_signature (joinC (tts.map Prod.fst) ++ [' ', '-', '>', ' '] ++ tr)
      = .ok ⟨("cdecl".toList), tts.map Prod.snd, ρ⟩ := by
  have harr : ("->".toList) = ['-', '>'] := rfl
  rw [harr] at hconv2
  have hwordr : strLower tr = wordOf ρ := fromStr_ok_iff.mp hret
  have hword : ∀ q ∈ tts, strLower q.1 = wordOf q.2 :=
    fun q hq => fromStr_ok_iff.mp (h q hq)
  have hjoin : ∀ c ∈ joinC (tts.map Prod.fst), c ≠ '-' ∧ c ≠ '(' ∧ c ≠ ')' := by
    intro c hc
    rcases mem_joinC hc with ⟨t, ht, hct⟩ | rfl
    · rcases List.mem_map.mp ht with ⟨q, hq, rfl⟩
      have hg := goodChar (vocab_char (hword q hq) c hct)
      exact ⟨hg.1, hg.2.2.2.1, hg.2.2.2.2.1⟩
    · exact ⟨by decide, by decide, by decide⟩
  have hj_dash : '-' ∉ joinC (tts.map Prod.fst) := fun hm => (hjoin _ hm).1 rfl
  have hj_po : '(' ∉ joinC (tts.map Prod.fst) := fun hm => (hjoin _ hm).2.1 rfl
  have hj_pc : ')' ∉ joinC (tts.map Prod.fst) := fun hm => (hjoin _ hm).2.2 rfl
  have htr_dash : '-' ∉ tr := fun hm => (goodChar (vocab_char hwordr '-' hm)).1 rfl
  have htr_ws : ∀ c ∈ tr, isWs c = false :=
    fun c hc => (goodChar (vocab_char hwordr c hc)).2.2.2.2.2
  have hR : findSub ['-', '>'] (' ' :: tr) = none := by
    apply noSub2_of_notMem
    intro hm
    rcases List.mem_cons.mp hm with he | hm2
    · exact absurd he (by decide)
    · exact htr_dash hm2
  have hretTrim : SupportedType.fromStr (listTrim (' ' :: tr)) = .ok ρ := by
    rw [listTrim_cons_ws, listTrim_eq_self htr_ws]
    exact hret
  constructor
  · -- parenthesized convention branch
    have hLfalse : hasSub ['-', '>']
        (joinC (tts.map Prod.fst) ++ '(' :: (conv ++ [')', ' '])) = false := by
      cases hx : hasSub ['-', '>'] (joinC (tts.map Prod.fst) ++ '(' :: (conv ++ [')', ' '])) with
      | false => rfl
      | true =>
        exfalso
        rcases hasSub2_append hx with h1 | h2 | h3
        · unfold hasSub at h1
          rw [noSub2_of_notMem hj_dash] at h1
          cases h1
        · rw [hasSub_cons_ne (by decide)] at h2
          rcases hasSub2_append h2 with h4 | h5 | h6
          · rw [h4] at hconv2
            cases hconv2
          · exact absurd h5 (by decide)
          · exact absurd h6.2 (by decide)
        · exact hj_dash (mem_of_getLast? h3.1)
    have hfind := findSub_sandwich2 (by decide) hLfalse (' ' :: tr)
    have hsplit2 : listSplitOn ['-', '>']
        ((joinC (tts.map Prod.fst) ++ '(' :: (conv ++ [')', ' '])) ++ '-' :: '>' :: (' ' :: tr))
        = [joinC (tts.map Prod.fst) ++ '(' :: (conv ++ [')', ' ']), ' ' :: tr] := by
      rw [splitOn_some (by decide) hfind]
      rw [List.take_left]
      rw [show ((joinC (tts.map Prod.fst) ++ '(' :: (conv ++ [')', ' '])) ++ '-' :: '>' :: (' ' :: tr)).drop
          ((joinC (tts.map Prod.fst) ++ '(' :: (conv ++ [')', ' '])).length + (['-', '>'] : List Char).length)
          = ' ' :: tr by rw [List.drop_append]; rfl]
      rw [splitOn_none hR]
    have hfulleq : joinC (tts.map Prod.fst) ++ ['('] ++ conv ++ [')'] ++ [' ', '-', '>', ' '] ++ tr
        = (joinC (tts.map Prod.fst) ++ '(' :: (conv ++ [')', ' '])) ++ '-' :: '>' :: (' ' :: tr) := by
      simp
    rw [hfulleq]
    unfold parse_signature
    rw [harr, hsplit2]
    show parseAfterSplit (joinC (tts.map Prod.fst) ++ '(' :: (conv ++ [')', ' '])) (' ' :: tr) = _
    have hpo : findSub (['('] ) (joinC (tts.map Prod.fst) ++ '(' :: (conv ++ [')', ' ']))
        = some (joinC (tts.map Prod.fst)).length := findSub_sandwich1 hj_po _
    have hpc : findSub ([')'] ) (joinC (tts.map Prod.fst) ++ '(' :: (conv ++ [')', ' ']))
        = some ((joinC (tts.map Prod.fst) ++ '(' :: conv).length) := by
      rw [show joinC (tts.map Prod.fst) ++ '(' :: (conv ++ [')', ' '])
          = (joinC (tts.map Prod.fst) ++ '(' :: conv) ++ ')' :: [' '] by simp]
      apply findSub_sandwich1
      intro hm
      rcases List.mem_append.mp hm with h1 | h2
      · exact hj_pc h1
      · rcases List.mem_cons.mp h2 with he | hm2
        · exact absurd he (by decide)
        · exact hconv1 hm2
    unfold parseAfterSplit
    simp only [hpo, hpc]
    rw [if_pos (by simp only [List.length_append, List.length_cons]; omega)]
    rw [show (joinC (tts.map Prod.fst) ++ '(' :: (conv ++ [')', ' '])).drop
        ((joinC (tts.map Prod.fst)).length + 1)
        = conv ++ [')', ' '] by rw [List.drop_append]; rfl]
    rw [show (joinC (tts.map Prod.fst) ++ '(' :: conv).length - ((joinC (tts.map Prod.fst)).length + 1)
        = conv.length by simp only [List.length_append, List.length_cons]; omega]
    rw [List.take_left]
    rw [List.take_left]
    unfold finishParse
    have hparams := parseParamList_join tts [] h (Or.inl rfl)
    rw [List.append_nil] at hparams
    rw [hparams, hretTrim]
  · -- default cdecl branch
    have hL2 : findSub ['-', '>'] (joinC (tts.map Prod.fst) ++ [' ']) = none := by
      apply noSub2_of_notMem
      intro hm
      rcases List.mem_append.mp hm with h1 | h2
      · exact hj_dash h1
      · exact absurd h2 (by decide)
    have hL2false : hasSub ['-', '>'] (joinC (tts.map Prod.fst) ++ [' ']) = false := by
      unfold hasSub
      rw [hL2]
      rfl
    have hfind := findSub_sandwich2 (by decide) hL2false (' ' :: tr)
    have hsplit2 : listSplitOn ['-', '>']
        ((joinC (tts.map Prod.fst) ++ [' ']) ++ '-' :: '>' :: (' ' :: tr))
        = [joinC (tts.map Prod.fst) ++ [' '], ' ' :: tr] := by
      rw [splitOn_some (by decide) hfind]
      rw [List.take_left]
      rw [show ((joinC (tts.map Prod.fst) ++ [' ']) ++ '-' :: '>' :: (' ' :: tr)).drop
          ((joinC (tts.map Prod.fst) ++ [' ']).length + (['-', '>'] : List Char).length)
          = ' ' :: tr by rw [List.drop_append]; rfl]
      rw [splitOn_none hR]
    have hfulleq : joinC (tts.map Prod.fst) ++ [' ', '-', '>', ' '] ++ tr
        = (joinC (tts.map Prod.fst) ++ [' ']) ++ '-' :: '>' :: (' ' :: tr) := by
      simp
    rw [hfulleq]
    unfold parse_signature
    rw [harr, hsplit2]
    show parseAfterSplit (joinC (tts.map Prod.fst) ++ [' ']) (' ' :: tr) = _
    have hpo : findSub (['('] ) (joinC (tts.map Prod.fst) ++ [' ']) = none := by
      apply noSub1_of_notMem
      intro hm
      rcases List.mem_append.mp hm with h1 | h2
      · exact hj_po h1
      · exact absurd h2 (by decide)
    unfold parseAfterSplit
    simp only [hpo]
    unfold finishParse
    rw [parseParamList_join tts [' '] h (Or.inr rfl), hretTrim]

/-- C2 (counterexample): the claim quantifies over every convention text,
but with convention text ")" the constructed signature "int()) -> int"
parses to the empty convention instead of ")", and with convention text
"a->b" the constructed signature fails outright with the format error. -/
theorem c2_counterexample :
    parse_signature ("int()) -> int".toList)
        = .ok ⟨[], [SupportedType.int], SupportedType.int⟩
    ∧ parse_signature ("int()) -> int".toList)
        ≠ .ok ⟨(")".toList), [SupportedType.int], SupportedType.int⟩
    ∧ parse_signature ("int(a->b) -> int".toList)
        = .err ("Signature must contain '->'".toList) :=
  ⟨by decide, by decide, by decide⟩

/-- C2 (witness): concrete instance of the amended grammar theorem. -/
theorem c2_witness :
    parse_signature ("int,FLOAT(stdcall) -> void".toList)
      = .ok ⟨("stdcall".toList), [SupportedType.int, SupportedType.float], SupportedType.void⟩
    ∧ parse_signature ("int,FLOAT -> void".toList)
      = .ok ⟨("cdecl".toList), [SupportedType.int, SupportedType.float], SupportedType.void⟩ := by
  have h2 := c2_signature_grammar
    [(("int".toList), SupportedType.int), (("FLOAT".toList), SupportedType.float)]
    ("stdcall".toList) ("void".toList) SupportedType.void
    (by
      intro p hp
      rcases List.mem_cons.mp hp with rfl | hp2
      · decide
      · rcases List.mem_singleton.mp hp2 with rfl
        decide)
    (by decide) (by decide) (by decide)
  exact ⟨h2.1, h2.2⟩

/-- C4 (code evaluation): on a left part whose first closing parenthesis
precedes the opening one, parse_signature panics through the out-of-bounds
slice instead of reporting a malformed signature, and parameter text
between the closing parenthesis and the arrow is silently dropped. -/
theorem c4_paren_bug :
    parse_signature (")x( -> int".toList) = RResult.crash
    ∧ parse_signature ("int(cdecl)x -> int".toList)
        = .ok ⟨("cdecl".toList), [SupportedType.int], SupportedType.int⟩ :=
  ⟨by decide, by decide⟩

/-- C6: a signature text whose arrow occurrence count is not exactly one
fails with the format error and never yields a signature. -/
theorem c6_arrow_count (s : List Char) (h : countSub ("->".toList) s ≠ 1) :
    parse_signature s = .err ("Signature must contain '->'".toList) := by
  unfold parse_signature
  have hlen := @splitOn_length ("->".toList) s
  cases hparts : listSplitOn ("->".toList) s with
  | nil => rfl
  | cons a rest =>
    cases rest with
    | nil => rfl
    | cons b rest2 =>
      cases rest2 with
      | nil =>
        exfalso
        rw [hparts] at hlen
        simp only [List.length_cons, List.length_nil] at hlen
        omega
      | cons c rest3 => rfl

/-- C6 (witness): a signature without any arrow fails with the format
error. -/
theorem c6_witness :
    countSub ("->".toList) ("int".toList) ≠ 1 ∧
      parse_signature ("int".toList) = .err ("Signature must contain '->'".toList) :=
  ⟨by decide, c6_arrow_count ("int".toList) (by decide)⟩

/-- C7: type-token resolution succeeds exactly when the lowercased token is
one of int, float, char, void; the resolved variant matches the token; any
other token fails with a message naming the offending token. -/
theorem c7_type_vocab (s : List Char) :
    ((∃ τ, SupportedType.fromStr s = .ok τ) ↔
      strLower s ∈ [("int".toList), ("float".toList), ("char".toList), ("void".toList)])
    ∧ (∀ τ, SupportedType.fromStr s = .ok τ → strLower s = wordOf τ)
    ∧ (strLower s ∉ [("int".toList), ("float".toList), ("char".toList), ("void".toList)] →
        SupportedType.fromStr s = .error (("Unsupported type: ".toList) ++ s)) := by
  refine ⟨⟨?_, ?_⟩, ?_, ?_⟩
  · intro ⟨τ, hτ⟩
    rw [fromStr_ok_iff.mp hτ]
    cases τ <;> simp [wordOf]
  · intro hmem
    simp only [List.mem_cons, List.mem_singleton, List.not_mem_nil, or_false] at hmem
    rcases hmem with hm | hm | hm | hm
    · exact ⟨.int, fromStr_ok_iff.mpr hm⟩
    · exact ⟨.float, fromStr_ok_iff.mpr hm⟩
    · exact ⟨.char, fromStr_ok_iff.mpr hm⟩
    · exact ⟨.void, fromStr_ok_iff.mpr hm⟩
  · intro τ hτ
    exact fromStr_ok_iff.mp hτ
  · intro hnot
    unfold SupportedType.fromStr
    rw [if_neg (fun hc => hnot (by simp [hc])),
      if_neg (fun hc => hnot (by simp [hc])),
      if_neg (fun hc => hnot (by simp [hc])),
      if_neg (fun hc => hnot (by simp [hc]))]

/-- C7 (witness): the token bool is rejected with a message naming it. -/
theorem c7_witness :
    SupportedType.fromStr ("bool".toList)
      = .error (("Unsupported type: ".toList) ++ ("bool".toList)) :=
  (c7_type_vocab ("bool".toList)).2.2 (by decide)

/-- A failing token makes the whole argument collection fail. -/
theorem collectOpt_none :
    ∀ (args : List (List Char)) (a : List Char), a ∈ args → parse_i32 a = none →
      collectOpt args = none := by
  intro args
  induction args with
  | nil => intro a hm; cases hm
  | cons x rest ih =>
    intro a hm hp
    unfold collectOpt
    rcases List.mem_cons.mp hm with rfl | hm2
    · rw [hp]
    · cases hx : parse_i32 x with
      | none => rfl
      | some v => rw [ih a hm2 hp]

/-- The collected values correspond one-to-one with the wire tokens. -/
theorem collectOpt_some_length :
    ∀ {args : List (List Char)} {vals : List Int},
      collectOpt args = some vals → vals.length = args.length := by
  intro args
  induction args with
  | nil =>
    intro vals h
    cases h
    rfl
  | cons x rest ih =>
    intro vals h
    unfold collectOpt at h
    cases hx : parse_i32 x with
    | none => rw [hx] at h; cases h
    | some v =>
      rw [hx] at h
      cases hr : collectOpt rest with
      | none => rw [hr] at h; cases h
      | some vs =>
        rw [hr] at h
        cases h
        simp [ih hr]

/-- A successfully parsed token value lies in the i32 range. -/
theorem parse_i32_range {s : List Char} {v : Int} (h : parse_i32 s = some v) :
    i32Min ≤ v ∧ v ≤ i32Max := by
  cases s with
  | nil => exact Option.noConfusion h
  | cons c rest =>
    simp only [parse_i32] at h
    split at h
    · cases h
    · split at h
      · split at h
        · next hcond =>
          injection h with h2
          subst h2
          exact hcond
        · cases h
      · cases h

/-- Every collected value lies in the i32 range. -/
theorem collectOpt_some_range :
    ∀ {args : List (List Char)} {vals : List Int},
      collectOpt args = some vals → ∀ v ∈ vals, i32Min ≤ v ∧ v ≤ i32Max := by
  intro args
  induction args with
  | nil =>
    intro vals h
    cases h
    intro v hv
    cases hv
  | cons x rest ih =>
    intro vals h
    unfold collectOpt at h
    cases hx : parse_i32 x with
    | none => rw [hx] at h; cases h
    | some w =>
      rw [hx] at h
      cases hr : collectOpt rest with
      | none => rw [hr] at h; cases h
      | some vs =>
        rw [hr] at h
        cases h
        intro v hv
        rcases List.mem_cons.mp hv with rfl | hv2
        · exact parse_i32_range hx
        · exact ih hr v hv2

/-- C8: when any wire argument token fails i32 parsing, the invocation
yields the argument-parsing error, and the outcome does not depend on the
native behaviour, so the error is produced before any native code runs. -/
theorem c8_argument_error (f g : List Int → Int) (args : List (List Char))
    (h : ∃ a ∈ args, parse_i32 a = none) :
    dynamic_invoke f args = .err ("Argument parsing error".toList)
    ∧ dynamic_invoke f args = dynamic_invoke g args := by
  rcases h with ⟨a, hm, hp⟩
  have hco := collectOpt_none args a hm hp
  unfold dynamic_invoke
  rw [hco]
  exact ⟨rfl, rfl⟩

/-- C8 (witness): the token x aborts the call with the argument error. -/
theorem c8_witness :
    dynamic_invoke zeroFun [("3".toList), ("x".toList)]
      = .err ("Argument parsing error".toList) :=
  (c8_argument_error zeroFun zeroFun [("3".toList), ("x".toList)]
    ⟨("x".toList), by decide, by decide⟩).1

/-- C1: once the symbol is resolved and a signature parses, the invocation
outcome is independent of the parsed signature, every argument token is
marshaled as an i32 in wire order with one value per token, and the return
value is reduced to the i32 range before decimal rendering. -/
theorem c1_i32_marshaling (lib : Library) (name m1 m2 : List Char)
    (args : List (List Char)) (f : List Int → Int) (sig1 sig2 : FunctionSignature)
    (hnul : Char.ofNat 0 ∉ name)
    (hget : lib.get name = .ok f)
    (h1 : parse_signature m1 = .ok sig1)
    (h2 : parse_signature m2 = .ok sig2) :
    invoke_function lib name (some m1) args = invoke_function lib name (some m2) args
    ∧ invoke_function lib name (some m1) args = dynamic_invoke f args
    ∧ (∀ vals, collectOpt args = some vals →
        vals.length = args.length
        ∧ (∀ v ∈ vals, i32Min ≤ v ∧ v ≤ i32Max)
        ∧ dynamic_invoke f args = .ok (intDecimal (toI32 (f vals))))
    ∧ (∀ x : Int, i32Min ≤ toI32 x ∧ toI32 x ≤ i32Max) := by
  have hinv : ∀ m sig, parse_signature m = .ok sig →
      invoke_function lib name (some m) args = dynamic_invoke f args := by
    intro m sig hm
    unfold invoke_function
    rw [if_neg hnul]
    simp only [hget, hm]
  refine ⟨?_, hinv m1 sig1 h1, ?_, ?_⟩
  · rw [hinv m1 sig1 h1, hinv m2 sig2 h2]
  · intro vals hv
    refine ⟨collectOpt_some_length hv, collectOpt_some_range hv, ?_⟩
    unfold dynamic_invoke
    rw [hv]
  · intro x
    unfold toI32 i32Min i32Max
    have h0 : (0 : Int) ≤ (x + 2 ^ 31) % 2 ^ 32 := Int.emod_nonneg _ (by norm_num)
    have h1 : (x + 2 ^ 31) % 2 ^ 32 < 2 ^ 32 := Int.emod_lt_of_pos _ (by norm_num)
    omega

/-- C1 (witness): two different valid signatures produce the same
invocation result. -/
theorem c1_witness :
    invoke_function constLib ("add".toList) (some ("int,int -> int".toList))
        [("3".toList), ("4".toList)]
      = invoke_function constLib ("add".toList) (some ("void -> float".toList))
        [("3".toList), ("4".toList)] :=
  (c1_i32_marshaling constLib ("add".toList) ("int,int -> int".toList)
    ("void -> float".toList) [("3".toList), ("4".toList)] zeroFun
    ⟨("cdecl".toList), [SupportedType.int, SupportedType.int], SupportedType.int⟩
    ⟨("cdecl".toList), [SupportedType.void], SupportedType.float⟩
    (by decide) rfl (by decide) (by decide)).1

/-- C3 (amended): invoke_function resolves the symbol before parsing the
signature: a failing lookup reports the loader diagnostic whatever the
signature text, and the signature parse error is reported only once the
lookup has succeeded. -/
theorem c3_order_of_checks (lib : Library) (name m : List Char)
    (args : List (List Char)) (hnul : Char.ofNat 0 ∉ name) :
    (∀ e, lib.get name = .error e →
      invoke_function lib name (some m) args = .err e)
    ∧ (∀ f pe, lib.get name = .ok f → parse_signature m = .err pe →
      invoke_function lib name (some m) args = .err pe) := by
  constructor
  · intro e he
    unfold invoke_function
    rw [if_neg hnul]
    simp only [he]
  · intro f pe hf hp
    unfold invoke_function
    rw [if_neg hnul]
    simp only [hf, hp]

/-- C3 (counterexample): with an unresolvable name and an unparseable
signature, the response is the loader diagnostic rather than the signature
parse error, so the parser does not run before symbol resolution. -/
theorem c3_counterexample :
    invoke_function badLib ("f".toList) (some ("nosig".toList)) []
      = .err ("sym lookup failed".toList)
    ∧ invoke_function badLib ("f".toList) (some ("nosig".toList)) []
      ≠ .err ("Signature must contain '->'".toList) :=
  ⟨by decide, by decide⟩

/-- C3 (witness): a failing lookup reports the loader diagnostic even for a
well-formed signature. -/
theorem c3_witness :
    invoke_function badLib ("g".toList) (some ("int -> int".toList)) []
      = .err ("sym lookup failed".toList) :=
  (c3_order_of_checks badLib ("g".toList) ("int -> int".toList) [] (by decide)).1 _ rfl

/-- A vocabulary failure message always names the offending token. -/
theorem fromStr_err_shape {s e : List Char} (h : SupportedType.fromStr s = .error e) :
    e = ("Unsupported type: ".toList) ++ s := by
  unfold SupportedType.fromStr at h
  split at h
  · cases h
  · split at h
    · cases h
    · split at h
      · cases h
      · split at h
        · cases h
        · injection h with h2
          exact h2.symm

/-- Errors of the type collection are vocabulary failure messages. -/
theorem collectTypes_err_shape :
    ∀ {l : List (List Char)} {e : List Char}, collectTypes l = .error e →
      ∃ t, e = ("Unsupported type: ".toList) ++ t := by
  intro l
  induction l with
  | nil => intro e h; cases h
  | cons s rest ih =>
    intro e h
    unfold collectTypes at h
    cases hf : SupportedType.fromStr (listTrim s) with
    | error e2 =>
      simp only [hf] at h
      injection h with h
      exact ⟨listTrim s, by rw [← h]; exact fromStr_err_shape hf⟩
    | ok τ =>
      simp only [hf] at h
      cases hr : collectTypes rest with
      | error e2 =>
        simp only [hr] at h
        injection h with h
        rcases ih hr with ⟨t, ht⟩
        exact ⟨t, by rw [← h]; exact ht⟩
      | ok τs =>
        simp only [hr] at h
        exact Except.noConfusion h

/-- Errors of finishParse are vocabulary failure messages. -/
theorem finishParse_err {cc p r e : List Char} (h : finishParse cc p r = .err e) :
    ∃ t, e = ("Unsupported type: ".toList) ++ t := by
  unfold finishParse at h
  cases hp : parseParamList p with
  | error e2 =>
    simp only [hp] at h
    injection h with h
    have hp2 : collectTypes ((listSplitOn ([','] ) p).filter
        (fun s => !(listTrim s).isEmpty)) = .error e2 := hp
    rcases collectTypes_err_shape hp2 with ⟨t, ht⟩
    exact ⟨t, by rw [← h]; exact ht⟩
  | ok τs =>
    simp only [hp] at h
    cases hr : SupportedType.fromStr (listTrim r) with
    | error e2 =>
      simp only [hr] at h
      injection h with h
      exact ⟨listTrim r, by rw [← h]; exact fromStr_err_shape hr⟩
    | ok ρ =>
      simp only [hr] at h
      exact RResult.noConfusion h

/-- Every parse_signature error message starts with S, M or U, after the
first word of its fixed prefix. -/
theorem parse_err_head {s e : List Char} (h : parse_signature s = .err e) :
    e.head? = some 'S' ∨ e.head? = some 'M' ∨ e.head? = some 'U' := by
  unfold parse_signature at h
  cases hsp : listSplitOn ("->".toList) s with
  | nil =>
    simp only [hsp] at h
    injection h with h
    rw [← h]
    exact Or.inl rfl
  | cons a rest =>
    cases rest with
    | nil =>
      simp only [hsp] at h
      injection h with h
      rw [← h]
      exact Or.inl rfl
    | cons b rest2 =>
      cases rest2 with
      | cons c rest3 =>
        simp only [hsp] at h
        injection h with h
        rw [← h]
        exact Or.inl rfl
      | nil =>
        simp only [hsp] at h
        unfold parseAfterSplit at h
        cases hpo : findSub (['('] ) a with
        | none =>
          simp only [hpo] at h
          rcases finishParse_err h with ⟨t, rfl⟩
          exact Or.inr (Or.inr rfl)
        | some start =>
          simp only [hpo] at h
          cases hpc : findSub ([')'] ) a with
          | none =>
            simp only [hpc] at h
            injection h with h
            rw [← h]
            exact Or.inr (Or.inl rfl)
          | some stop =>
            simp only [hpc] at h
            split at h
            · rcases finishParse_err h with ⟨t, rfl⟩
              exact Or.inr (Or.inr rfl)
            · exact RResult.noConfusion h

/-- C9: invoke_function reports the invalid-name error exactly on names
holding an embedded NUL character; otherwise a failing lookup reports the
loader diagnostic, and an invalid-name response can only originate from
the lookup diagnostic itself. -/
theorem c9_symbol_resolution (lib : Library) (name : List Char)
    (md : Option (List Char)) (args : List (List Char)) :
    (Char.ofNat 0 ∈ name →
      invoke_function lib name md args = .err ("Invalid function name".toList))
    ∧ (Char.ofNat 0 ∉ name → ∀ e, lib.get name = .error e →
      invoke_function lib name md args = .err e)
    ∧ (Char.ofNat 0 ∉ name →
      invoke_function lib name md args = .err ("Invalid function name".toList) →
      lib.get name = .error ("Invalid function name".toList)) := by
  refine ⟨?_, ?_, ?_⟩
  · intro hnul
    unfold invoke_function
    rw [if_pos hnul]
  · intro hnul e he
    unfold invoke_function
    rw [if_neg hnul]
    simp only [he]
  · intro hnul h
    unfold invoke_function at h
    rw [if_neg hnul] at h
    cases hg : lib.get name with
    | error e =>
      simp only [hg] at h
      injection h with h
      rw [h]
    | ok f =>
      exfalso
      simp only [hg] at h
      cases md with
      | none =>
        injection h with h2
        exact absurd h2 (by decide)
      | some m =>
        cases hp : parse_signature m with
        | err pe =>
          simp only [hp] at h
          injection h with h
          subst h
          rcases parse_err_head hp with hh | hh | hh <;>
            exact absurd hh (by decide)
        | crash =>
          simp only [hp] at h
          exact RResult.noConfusion h
        | ok sig =>
          simp only [hp] at h
          unfold dynamic_invoke at h
          cases hc : collectOpt args with
          | none =>
            simp only [hc] at h
            injection h with h2
            exact absurd h2 (by decide)
          | some vals =>
            simp only [hc] at h
            exact RResult.noConfusion h

/-- C9 (witness): a clean name that the loader cannot resolve yields the
loader diagnostic. -/
theorem c9_witness :
    invoke_function badLib ("f".toList) none [] = .err ("sym lookup failed".toList) :=
  (c9_symbol_resolution badLib ("f".toList) none []).2.1 (by decide) _ rfl

/-- trim_start_matches only removes a prefix: its result is a drop. -/
theorem trimStartAux_drop {pat : List Char} :
    ∀ (fuel : Nat) (s : List Char), ∃ k, trimStartAux pat fuel s = s.drop k := by
  intro fuel
  induction fuel with
  | zero => intro s; exact ⟨0, rfl⟩
  | succ f ih =>
    intro s
    unfold trimStartAux
    split
    · rcases ih (s.drop pat.length) with ⟨k, hk⟩
      exact ⟨pat.length + k, by rw [hk, List.drop_drop]⟩
    · exact ⟨0, rfl⟩

/-- An arrow inside the sig-stripped token was in the original token. -/
theorem hasSub_trimStart {pat sep s : List Char}
    (h : hasSub sep (trimStartMatches pat s) = true) : hasSub sep s = true := by
  rcases @trimStartAux_drop pat (s.length + 1) s with ⟨k, hk⟩
  unfold trimStartMatches at h
  rw [hk] at h
  exact hasSub_of_drop h

/-- Pushing an arrow-free token onto an arrow-free accumulator cannot
create an arrow occurrence: the separating space interrupts any straddle. -/
theorem hasSub_sigAppend {acc t : List Char}
    (hacc : hasSub ("->".toList) acc = false) (ht : hasSub ("->".toList) t = false) :
    hasSub ("->".toList) (sigAppend acc t) = false := by
  have harr : ("->".toList) = ['-', '>'] := rfl
  rw [harr] at hacc ht ⊢
  unfold sigAppend
  split
  · next hEmpty =>
    rw [List.isEmpty_iff.mp hEmpty]
    simpa using ht
  · cases hx : hasSub ['-', '>'] (acc ++ [' '] ++ t) with
    | false => rfl
    | true =>
      exfalso
      rw [show acc ++ [' '] ++ t = acc ++ ' ' :: t by simp] at hx
      rcases hasSub2_append hx with h1 | h2 | h3
      · rw [h1] at hacc; cases hacc
      · rw [hasSub_cons_ne (by decide)] at h2
        rw [h2] at ht; cases ht
      · simpa using h3.2

/-- The signature scan finds no arrow when no piece carries one. -/
theorem sigScan_none :
    ∀ (pieces : List (List Char)) (i : Nat) (acc : List Char),
      hasSub ("->".toList) acc = false →
      (∀ p ∈ pieces, hasSub ("->".toList) p = false) →
      sigScan pieces i acc = none := by
  intro pieces
  induction pieces with
  | nil => intro i acc _ _; rfl
  | cons t rest ih =>
    intro i acc hacc hp
    have h2 := hasSub_sigAppend hacc (hp t (List.mem_cons_self t rest))
    unfold sigScan
    rw [if_neg (by rw [h2]; simp)]
    exact ih (i + 1) (sigAppend acc t) h2
      (fun p hpm => hp p (List.mem_cons_of_mem t hpm))

/-- C5 (amended): on a call line with a function name, when no token after
the name opens a sig: block the response is an ERR text that is the
no-signature error whenever the name is NUL-free and resolves (the
invalid-name error or the loader diagnostic otherwise), and when a sig:
block is opened but no token of the tail carries the arrow the response is
the malformed-signature error; in both situations the response never
consults the resolved native behaviour, so no native call happens. -/
theorem c5_missing_signature (lib : Library) (line : List Char)
    (toks : List (List Char))
    (hsplit : splitWs line = toks)
    (hcall : toks.head? = some ("call".toList))
    (hlen : 2 ≤ toks.length) :
    ((∀ t ∈ toks.drop 2, startsWithL ("sig:".toList) t = false) →
      handle_client_command lib line
        = some (("ERR ".toList) ++
            (if Char.ofNat 0 ∈ toks.getD 1 [] then ("Invalid function name".toList)
             else match lib.get (toks.getD 1 []) with
               | .error e => e
               | .ok _ => ("No signature string provided".toList))))
    ∧ (∀ st rest, toks.drop 2 = st :: rest →
        startsWithL ("sig:".toList) st = true →
        (∀ t ∈ toks.drop 2, hasSub ("->".toList) t = false) →
        handle_client_command lib line
          = some ("ERR Malformed signature; no '->' found".toList)) := by
  have hhcc : handle_client_command lib line = handle_tokens lib toks := by
    unfold handle_client_command
    rw [hsplit]
  have hinv : ∀ args0, invoke_function lib (toks.getD 1 []) none args0
      = RResult.err (if Char.ofNat 0 ∈ toks.getD 1 [] then ("Invalid function name".toList)
          else match lib.get (toks.getD 1 []) with
            | .error e => e
            | .ok _ => ("No signature string provided".toList)) := by
    intro args0
    unfold invoke_function
    split
    · rfl
    · cases hg : lib.get (toks.getD 1 []) with
      | error e => simp only [hg]
      | ok f => simp only [hg]
  constructor
  · intro hnosig
    rw [hhcc]
    unfold handle_tokens
    rw [if_neg (by simp [hcall])]
    rw [if_neg (by omega)]
    split
    · next st2 r2 heq =>
      have hst := hnosig st2 (by rw [heq]; exact List.mem_cons_self st2 r2)
      rw [if_neg (by rw [hst]; simp)]
      rw [hinv (toks.drop 2)]
      rfl
    · next heq =>
      rw [hinv (toks.drop 2)]
      rfl
  · intro st rest hd hst hno
    rw [hhcc]
    unfold handle_tokens
    rw [if_neg (by simp [hcall])]
    rw [if_neg (by omega)]
    rw [hd] at hno
    split
    · next st2 r2 heq =>
      rw [hd] at heq
      injection heq with h1 h2
      subst h1
      subst h2
      rw [if_pos hst]
      have hscan : sigScan (trimStartMatches ("sig:".toList) st :: rest) 2 [] = none := by
        apply sigScan_none
        · decide
        · intro p hp
          rcases List.mem_cons.mp hp with rfl | hp2
          · have h1 : hasSub ("->".toList) st = false :=
              hno st (List.mem_cons_self st rest)
            cases hx : hasSub ("->".toList) (trimStartMatches ("sig:".toList) st) with
            | false => rfl
            | true => rw [hasSub_trimStart hx] at h1; cases h1
          · exact hno p (List.mem_cons_of_mem st hp2)
      rw [hscan]
    · next heq =>
      rw [hd] at heq
      cases heq

/-- C5 (counterexample): with an unresolvable function name and no sig:
token the response carries the loader diagnostic, not the no-signature
error, because resolution runs before the metadata check. -/
theorem c5_counterexample :
    handle_client_command badLib ("call f 1".toList)
      = some ("ERR sym lookup failed".toList)
    ∧ handle_client_command badLib ("call f 1".toList)
      ≠ some ("ERR No signature string provided".toList) :=
  ⟨by decide, by decide⟩

/-- C5 (witness): with a resolving name and no sig: token the response is
the no-signature error; the malformed error fires when the sig: block
never closes. -/
theorem c5_witness :
    handle_client_command constLib ("call f 1".toList)
      = some ("ERR No signature string provided".toList)
    ∧ handle_client_command constLib ("call add sig:int,int".toList)
      = some ("ERR Malformed signature; no '->' found".toList) := by
  constructor
  · exact (c5_missing_signature constLib ("call f 1".toList)
      [("call".toList), ("f".toList), ("1".toList)] (by decide) (by decide) (by decide)).1
      (by decide)
  · exact (c5_missing_signature constLib ("call add sig:int,int".toList)
      [("call".toList), ("add".toList), ("sig:int,int".toList)] (by decide) (by decide)
      (by decide)).2 ("sig:int,int".toList) [] (by decide) (by decide) (by decide)

/-- A missing write means the computation panicked. -/
theorem respondWrite_none {x : RResult (List Char)} (h : respondWrite x = none) :
    x = RResult.crash := by
  cases x with
  | ok a => exact Option.noConfusion h
  | err e => exact Option.noConfusion h
  | crash => rfl

/-- Shape of a written response: an ERR text or the raw success text. -/
theorem respondWrite_some {x : RResult (List Char)} {r : List Char}
    (h : respondWrite x = some r) :
    (∃ msg, x = .err msg ∧ r = ("ERR ".toList) ++ msg) ∨ x = .ok r := by
  cases x with
  | ok a =>
    injection h with h2
    subst h2
    exact Or.inr rfl
  | err e =>
    injection h with h2
    exact Or.inl ⟨e, rfl, h2.symm⟩
  | crash => exact Option.noConfusion h

/-- Without a metadata string invoke_function never panics: it stops at
the no-signature error (or earlier). -/
theorem invoke_none_ne_crash {lib : Library} {name : List Char}
    {args : List (List Char)} :
    invoke_function lib name none args ≠ RResult.crash := by
  intro h
  unfold invoke_function at h
  split at h
  · exact RResult.noConfusion h
  · cases hg : lib.get name with
    | error e =>
      simp only [hg] at h
      exact RResult.noConfusion h
    | ok f =>
      simp only [hg] at h
      exact RResult.noConfusion h

/-- With a metadata string, invoke_function panics exactly when the name is
NUL-free, the symbol resolves, and parse_signature panics on that string. -/
theorem invoke_crash_iff {lib : Library} {name sig : List Char}
    {args : List (List Char)} :
    invoke_function lib name (some sig) args = RResult.crash ↔
      (Char.ofNat 0 ∉ name ∧ ∃ f, lib.get name = .ok f
        ∧ parse_signature sig = RResult.crash) := by
  constructor
  · intro h
    unfold invoke_function at h
    split at h
    · exact RResult.noConfusion h
    · next hn =>
      refine ⟨hn, ?_⟩
      cases hg : lib.get name with
      | error e =>
        simp only [hg] at h
        exact RResult.noConfusion h
      | ok f =>
        simp only [hg] at h
        cases hp : parse_signature sig with
        | err pe =>
          simp only [hp] at h
          exact RResult.noConfusion h
        | crash => exact ⟨f, rfl, rfl⟩
        | ok s2 =>
          simp only [hp] at h
          unfold dynamic_invoke at h
          cases hc : collectOpt args with
          | none =>
            simp only [hc] at h
            exact RResult.noConfusion h
          | some vals =>
            simp only [hc] at h
            exact RResult.noConfusion h
  · intro ⟨hn, f, hg, hp⟩
    unfold invoke_function
    rw [if_neg hn]
    simp only [hg, hp]

/-- A successful invocation renders an i32-wrapped integer in decimal. -/
theorem invoke_ok {lib : Library} {name : List Char} {md : Option (List Char)}
    {args : List (List Char)} {r : List Char}
    (h : invoke_function lib name md args = .ok r) :
    ∃ x : Int, r = intDecimal (toI32 x) := by
  unfold invoke_function at h
  split at h
  · exact RResult.noConfusion h
  · cases hg : lib.get name with
    | error e =>
      simp only [hg] at h
      exact RResult.noConfusion h
    | ok f =>
      simp only [hg] at h
      cases md with
      | none => exact RResult.noConfusion h
      | some m =>
        cases hp : parse_signature m with
        | err pe =>
          simp only [hp] at h
          exact RResult.noConfusion h
        | crash =>
          simp only [hp] at h
          exact RResult.noConfusion h
        | ok sig =>
          simp only [hp] at h
          unfold dynamic_invoke at h
          cases hc : collectOpt args with
          | none =>
            simp only [hc] at h
            exact RResult.noConfusion h
          | some vals =>
            simp only [hc] at h
            injection h with h2
            exact ⟨f vals, h2.symm⟩

/-- The precise condition under which a request line kills the worker: the
line opens a sig: block, the scan closes it with some gathered text and
break index, the NUL-free function name resolves, and parse_signature
panics on that gathered text. -/
def sigPanic (lib : Library) (toks : List (List Char)) : Prop :=
  ∃ st rest sig end_idx f,
    toks.head? = some ("call".toList)
    ∧ 2 ≤ toks.length
    ∧ toks.drop 2 = st :: rest
    ∧ startsWithL ("sig:".toList) st = true
    ∧ sigScan (trimStartMatches ("sig:".toList) st :: rest) 2 [] = some (sig, end_idx)
    ∧ Char.ofNat 0 ∉ toks.getD 1 []
    ∧ lib.get (toks.getD 1 []) = Except.ok f
    ∧ parse_signature sig = RResult.crash

/-- C10 (amended): the dispatcher writes at most one response per line and
appends no terminator; no response is written exactly when the signature
text gathered from that very line panics the parser (its first closing
parenthesis precedes its opening one) after the NUL-free name resolved; on
every other line exactly one response is written, and every written
response is either an ERR-prefixed message or the decimal rendering of an
i32 result. -/
theorem c10_single_response (lib : Library) (line : List Char) :
    (handle_client_command lib line = none ↔ sigPanic lib (splitWs line))
    ∧ (¬ sigPanic lib (splitWs line) → ∃ r, handle_client_command lib line = some r)
    ∧ (∀ r, handle_client_command lib line = some r →
        (∃ msg, r = ("ERR ".toList) ++ msg) ∨ (∃ x : Int, r = intDecimal (toI32 x))) := by
  have hiff : handle_client_command lib line = none ↔ sigPanic lib (splitWs line) := by
    constructor
    · intro hnone
      unfold handle_client_command handle_tokens at hnone
      split at hnone
      · exact Option.noConfusion hnone
      · next hc1 =>
        split at hnone
        · exact Option.noConfusion hnone
        · next hc2 =>
          split at hnone
          · next st2 r2 heq =>
            split at hnone
            · next hst =>
              split at hnone
              · exact Option.noConfusion hnone
              · next sig end_idx hscan =>
                rcases invoke_crash_iff.mp (respondWrite_none hnone) with ⟨hn, f, hg, hp⟩
                exact ⟨st2, r2, sig, end_idx, f, not_not.mp hc1, by omega, heq, hst,
                  hscan, hn, hg, hp⟩
            · next hst =>
              exact absurd (respondWrite_none hnone) invoke_none_ne_crash
          · next heq =>
            exact absurd (respondWrite_none hnone) invoke_none_ne_crash
    · intro ⟨st, rest, sig, end_idx, f, hcall, hlen, hd, hst, hscan, hn, hg, hp⟩
      unfold handle_client_command handle_tokens
      rw [if_neg (by simp [hcall])]
      rw [if_neg (by omega)]
      split
      · next st2 r2 heq =>
        rw [hd] at heq
        injection heq with e1 e2
        subst e1
        subst e2
        rw [if_pos hst]
        simp only [hscan]
        rw [invoke_crash_iff.mpr ⟨hn, f, hg, hp⟩]
        rfl
      · next heq =>
        rw [hd] at heq
        cases heq
  refine ⟨hiff, ?_, ?_⟩
  · intro hnp
    cases hh : handle_client_command lib line with
    | none => exact absurd (hiff.mp hh) hnp
    | some r => exact ⟨r, rfl⟩
  · intro r hr
    unfold handle_client_command handle_tokens at hr
    split at hr
    · injection hr with h2
      exact Or.inl ⟨("Command must start with 'call'".toList), by rw [← h2]; decide⟩
    · split at hr
      · injection hr with h2
        exact Or.inl ⟨("Missing function name".toList), by rw [← h2]; decide⟩
      · split at hr
        · split at hr
          · split at hr
            · injection hr with h2
              exact Or.inl ⟨("Malformed signature; no '->' found".toList), by rw [← h2]; decide⟩
            · rcases respondWrite_some hr with ⟨msg, _, rfl⟩ | hx
              · exact Or.inl ⟨msg, rfl⟩
              · exact Or.inr (invoke_ok hx)
          · rcases respondWrite_some hr with ⟨msg, _, rfl⟩ | hx
            · exact Or.inl ⟨msg, rfl⟩
            · exact Or.inr (invoke_ok hx)
        · rcases respondWrite_some hr with ⟨msg, _, rfl⟩ | hx
          · exact Or.inl ⟨msg, rfl⟩
          · exact Or.inr (invoke_ok hx)

/-- C10 (counterexample): the line whose sig block carries a closing
parenthesis before the opening one makes the dispatcher panic before any
write, so no response is produced for it. -/
theorem c10_counterexample :
    handle_client_command constLib ("call f sig:)x(->int".toList) = none := by decide

/-- C10 (witness): a concrete non-panicking line receives a response of the
claimed ERR shape. -/
theorem c10_witness :
    (∃ msg, ("ERR No signature string provided".toList) = ("ERR ".toList) ++ msg)
    ∨ (∃ x : Int, ("ERR No signature string provided".toList) = intDecimal (toI32 x)) :=
  (c10_single_response constLib ("call x 1".toList)).2.2
    (("ERR No signature string provided".toList)) (by decide)

end Dllbridge
